import Mathlib

/-!
Shallow embedding of the constrained allocation engine of
`src/Aimess.jsx` (the `ConstrainedFruitVoting` component): the vote
aggregator, the constraint evaluator, the greedy allocation scheduler
(`findOptimalPlanWithConstraints`), the diagnostics summary derived in the
`useEffect` hook, and the per-participant availability filter
(`getAvailableFruits`).  Days, meals and the fruit catalog are the fixed
finite vocabularies declared at the top of the component.
-/

set_option maxHeartbeats 1000000

namespace MessPlanner

/-- The six days of the planning week, in the canonical order of the
`days` array of the source. -/
inductive Day where
  | Monday | Tuesday | Wednesday | Thursday | Friday | Saturday
deriving DecidableEq, Repr, Fintype

/-- The two meals of a day, in the canonical order of the `meals` array. -/
inductive Meal where
  | Lunch | Dinner
deriving DecidableEq, Repr, Fintype

/-- The fruit catalog, in the declared order of the `fruits` array. -/
inductive Fruit where
  | Apple | Banana | Orange | Mango | Grapes | Strawberry | Cherry | Peach | Pear | Kiwi
deriving DecidableEq, Repr, Fintype

/-- `days = ['Monday', ..., 'Saturday']`. -/
def days : List Day :=
  [.Monday, .Tuesday, .Wednesday, .Thursday, .Friday, .Saturday]

/-- `meals = ['Lunch', 'Dinner']`. -/
def meals : List Meal := [.Lunch, .Dinner]

/-- `fruits = ['Apple', ..., 'Kiwi']`. -/
def fruits : List Fruit :=
  [.Apple, .Banana, .Orange, .Mango, .Grapes, .Strawberry, .Cherry, .Peach, .Pear, .Kiwi]

/-- `days[dayIndex - 1]` when `dayIndex > 0`, else `null`
(the source computes `dayIndex = days.indexOf(day)` and takes
`days[dayIndex - 1]`). -/
def prevDay : Day → Option Day
  | .Monday => none
  | .Tuesday => some .Monday
  | .Wednesday => some .Tuesday
  | .Thursday => some .Wednesday
  | .Friday => some .Thursday
  | .Saturday => some .Friday

/-- `days[dayIndex + 1]` when `dayIndex < days.length - 1`, else `null`. -/
def nextDay : Day → Option Day
  | .Monday => some .Tuesday
  | .Tuesday => some .Wednesday
  | .Wednesday => some .Thursday
  | .Thursday => some .Friday
  | .Friday => some .Saturday
  | .Saturday => none

/-- One participant's selections: the nested `users[name][day][meal]`
object, with the empty-string "no selection" value rendered as `none`. -/
abbrev Ballot := Day → Meal → Option Fruit

/-- The `users` state object: named ballots (JS object keys are the user
names, values the per-user selection tables). -/
abbrev Users := List (String × Ballot)

/-- The per-slot result record built by the scheduler:
`{ fruit, votes, totalUsers, reason, hasViolation }`. -/
structure Assignment where
  fruit : Option Fruit
  votes : Nat
  totalUsers : Nat
  reason : String
  hasViolation : Bool
deriving DecidableEq, Repr

/-- One entry of the violation log: `{ day, meal, fruit, reason, votes }`. -/
structure Violation where
  day : Day
  meal : Meal
  fruit : Fruit
  reason : String
  votes : Nat
deriving DecidableEq, Repr

/-- The `plan` object under construction, flattened to an association list
from slot `(day, meal)` to its `Assignment`, in insertion order. -/
abbrev Plan := List ((Day × Meal) × Assignment)

/-- The full result of `findOptimalPlanWithConstraints`:
`{ plan, fruitUsage, violations }` (during the run the usage map is the
`fruitUsageCount` object). -/
structure AllocState where
  plan : Plan
  fruitUsage : Fruit → Nat
  violations : List Violation

/-- The canonical slot sequence: each day in order, Lunch then Dinner
(the scheduler's nested `days.forEach` / `meals.forEach` loops). -/
def slots : List (Day × Meal) :=
  days.flatMap (fun d => meals.map (fun m => (d, m)))

/-- Step 1 of the scheduler: `voteCounts[day][meal][fruit]`, the number of
users whose selection at that slot is that fruit (empty selections
contribute nothing). -/
def voteCounts (users : Users) (d : Day) (m : Meal) (f : Fruit) : Nat :=
  ((users.map Prod.snd).filter (fun b => decide (b d m = some f))).length

/-- The candidate list for one slot: `Object.entries(mealVotes)` (catalog
order), stably sorted by descending vote count (`.sort(([,a],[,b]) => b - a)`,
a stable sort in JS), then `.filter(([,votes]) => votes > 0)`. -/
def sortedCandidates (users : Users) (d : Day) (m : Meal) : List (Fruit × Nat) :=
  ((fruits.map (fun f => (f, voteCounts users d m f))).mergeSort
      (fun a b => decide (b.2 ≤ a.2))).filter (fun c => decide (0 < c.2))

/-- `plan[day]?.[meal]`: the assignment already recorded for a slot, if any. -/
def planFind (plan : Plan) (d : Day) (m : Meal) : Option Assignment :=
  (plan.find? (fun e => decide (e.1 = (d, m)))).map Prod.snd

/-- `plan[day]?.[meal]?.fruit`, collapsing both "slot not yet assigned"
and "assigned with a null fruit" to `none` (neither compares equal to a
fruit in the source's `===` tests). -/
def planFruit (plan : Plan) (d : Day) (m : Meal) : Option Fruit :=
  (planFind plan d m).bind Assignment.fruit

/-- `currentDaySelections`: the non-null fruits already planned for the
other meals of the same day. -/
def currentDaySelections (plan : Plan) (d : Day) (m : Meal) : List Fruit :=
  (meals.filter (fun m2 => decide (m2 ≠ m))).filterMap (fun m2 => planFruit plan d m2)

/-- Constraint 1a test: the candidate appears in `currentDaySelections`. -/
def sameDayHit (plan : Plan) (d : Day) (m : Meal) (f : Fruit) : Bool :=
  decide (f ∈ currentDaySelections plan d m)

/-- Constraint 1b test: the candidate equals the previous day's planned
lunch or dinner fruit (`fruit === prevLunch || fruit === prevDinner`);
no previous day means no hit. -/
def adjacentHit (plan : Plan) (d : Day) (f : Fruit) : Bool :=
  match prevDay d with
  | some pd =>
      decide (planFruit plan pd .Lunch = some f) || decide (planFruit plan pd .Dinner = some f)
  | none => false

/-- Constraint 2 test: `fruitUsageCount[fruit] >= 2`. -/
def capHit (usage : Fruit → Nat) (f : Fruit) : Bool :=
  decide (2 ≤ usage f)

/-- The constraint evaluator: the body of the candidate loop, returning
`none` when the candidate is legal (`canSelect` stays true) and otherwise
the `violationReason` of the first failing rule, in the source's check
order 1a, 1b, 2. -/
def checkCandidate (plan : Plan) (usage : Fruit → Nat) (d : Day) (m : Meal)
    (f : Fruit) : Option String :=
  if sameDayHit plan d m f then some "Same day rule"
  else if adjacentHit plan d f then some "Consecutive days rule"
  else if capHit usage f then some "Max 2 times per week rule"
  else none

/-- The candidate walk (`for (const [fruit, votes] of sortedCandidates)`):
returns the first legal candidate, if any, together with the violation
log entries pushed for the illegal candidates passed over before it
(each rejected candidate before a selection is logged, since
`selectedFruit` is still null at that point). -/
def selectLoop (plan : Plan) (usage : Fruit → Nat) (d : Day) (m : Meal) :
    List (Fruit × Nat) → Option (Fruit × Nat) × List Violation
  | [] => (none, [])
  | c :: rest =>
    match checkCandidate plan usage d m c.1 with
    | none => (some c, [])
    | some r =>
      let res := selectLoop plan usage d m rest
      (res.1, { day := d, meal := m, fruit := c.1, reason := r, votes := c.2 } :: res.2)

/-- The selection outcome for a slot: the chosen fruit (if any), the
`selectionReason` string and the `hasViolation` flag — the legal pick when
the walk found one, else the forced head of the candidate list
(`sortedCandidates[0]`), else nothing. -/
def slotChoice (users : Users) (st : AllocState) (d : Day) (m : Meal) :
    Option Fruit × String × Bool :=
  match (selectLoop st.plan st.fruitUsage d m (sortedCandidates users d m)).1 with
  | some c => (some c.1, toString c.2 ++ " votes, no violations", false)
  | none =>
    match sortedCandidates users d m with
    | c0 :: _ => (some c0.1, "Forced selection (" ++ toString c0.2 ++ " votes)", true)
    | [] => (none, "No selection", false)

/-- The `Assignment` recorded for a slot: on a (legal or forced)
selection, `{ fruit, votes: mealVotes[selectedFruit] || 0, totalUsers,
reason, hasViolation }`; with no selection, the null record with reason
"No selection". -/
def slotAssignment (users : Users) (st : AllocState) (d : Day) (m : Meal) : Assignment :=
  match slotChoice users st d m with
  | (some f, r, hv) =>
      { fruit := some f, votes := voteCounts users d m f, totalUsers := users.length,
        reason := r, hasViolation := hv }
  | (none, _, _) =>
      { fruit := none, votes := 0, totalUsers := users.length,
        reason := "No selection", hasViolation := false }

/-- `fruitUsageCount[selectedFruit]++` on a selection, untouched otherwise. -/
def bumpUsage (usage : Fruit → Nat) : Option Fruit → Fruit → Nat
  | some f => fun g => if g = f then usage g + 1 else usage g
  | none => usage

/-- Processing of one slot: append the slot's assignment to the plan,
bump the usage counter of the selected fruit, and append the violation
log entries pushed during the candidate walk. -/
def processSlot (users : Users) (st : AllocState) (d : Day) (m : Meal) : AllocState :=
  { plan := st.plan ++ [((d, m), slotAssignment users st d m)]
    fruitUsage := bumpUsage st.fruitUsage (slotChoice users st d m).1
    violations := st.violations ++ (selectLoop st.plan st.fruitUsage d m (sortedCandidates users d m)).2 }

/-- Processing of one day: the inner `meals.forEach` loop (Lunch, then
Dinner). -/
def processDay (users : Users) (st : AllocState) (d : Day) : AllocState :=
  meals.foldl (fun s m => processSlot users s d m) st

/-- The scheduler's initial state: empty plan, all usage counters zero,
empty violation log. -/
def initState : AllocState :=
  { plan := [], fruitUsage := fun _ => 0, violations := [] }

/-- `findOptimalPlanWithConstraints`: fold the per-day processing over the
canonical day order, starting from the empty state. -/
def allocate (users : Users) : AllocState :=
  days.foldl (processDay users) initState

/-- The number of plan entries whose assignment carries the given fruit. -/
def cntFruit (plan : Plan) (f : Fruit) : Nat :=
  (plan.filter (fun e => decide (e.2.fruit = some f))).length

/-- The `overUsed` list of the `useEffect` hook:
`Object.entries(result.fruitUsage).filter(([, count]) => count > 2)`,
in catalog (insertion) order. -/
def overUsedFruits (st : AllocState) : List Fruit :=
  fruits.filter (fun f => decide (2 < st.fruitUsage f))

/-- The status summary string built in the `useEffect` hook. -/
def summaryString (st : AllocState) : String :=
  toString st.violations.length ++ " constraint conflicts, " ++
    toString (overUsedFruits st).length ++ " fruits over-used"

/-- `users[targetUser]?.[day]?.[meal]` with the empty string as `none`;
an unknown user name yields `none` everywhere (optional chaining). -/
def userSel (users : Users) (name : String) (d : Day) (m : Meal) : Option Fruit :=
  match users.find? (fun e => decide (e.1 = name)) with
  | some e => e.2 d m
  | none => none

/-- `getAvailableFruits(targetUser, targetDay, targetMeal)`: the catalog
filtered by the three constraint tests evaluated against that one user's
own selections — the same-day other meal, the previous AND next day's
selections, and the user's usage count with the target slot itself
excluded. -/
def getAvailableFruits (users : Users) (tu : String) (td : Day) (tm : Meal) : List Fruit :=
  let userFruitCount : Fruit → Nat := fun fruit =>
    (slots.filter (fun s =>
      decide (¬(s.1 = td ∧ s.2 = tm)) && decide (userSel users tu s.1 s.2 = some fruit))).length
  let sameDayOtherMeal : Meal := if tm = .Lunch then .Dinner else .Lunch
  let sameDaySelection : Option Fruit := userSel users tu td sameDayOtherMeal
  let adjacentDayFruits : List Fruit :=
    (match prevDay td with
     | some pd => meals.filterMap (fun m => userSel users tu pd m)
     | none => []) ++
    (match nextDay td with
     | some nd => meals.filterMap (fun m => userSel users tu nd m)
     | none => [])
  fruits.filter (fun fruit =>
    if sameDaySelection = some fruit then false
    else if fruit ∈ adjacentDayFruits then false
    else if 2 ≤ userFruitCount fruit then false
    else true)

/-- The participant-side usage count of one fruit, with one slot (the one
being edited) excluded — the quantity `userFruitCount` measures. -/
def ownUsage (users : Users) (tu : String) (excluded : Day × Meal) (f : Fruit) : Nat :=
  (slots.filter (fun s =>
    decide (¬(s.1 = excluded.1 ∧ s.2 = excluded.2)) &&
      decide (userSel users tu s.1 s.2 = some f))).length

/-- Spec-side availability predicate (the amended reading of the
availability contract): the three constraint rules applied to one
participant's own selections — same-day exclusivity against the other
meal of the target day, adjacency exclusivity against BOTH the previous
and the next day, and the usage cap of 2 with the target slot itself
excluded from the count. -/
def availSpec (users : Users) (tu : String) (td : Day) (tm : Meal) (f : Fruit) : Prop :=
  (∀ m2 : Meal, m2 ≠ tm → userSel users tu td m2 ≠ some f) ∧
  (∀ ad : Day, (prevDay td = some ad ∨ nextDay td = some ad) →
    ∀ m : Meal, userSel users tu ad m ≠ some f) ∧
  ownUsage users tu (td, tm) f < 2

/-- The claim's literal reading of the availability contract: the same
three constraint rules AS THE SCHEDULER — in particular adjacency against
the previous day only — applied to the participant's own selections. -/
def availBySchedulerRules (users : Users) (tu : String) (td : Day) (tm : Meal) : List Fruit :=
  fruits.filter (fun fruit =>
    if (∃ m2 : Meal, m2 ≠ tm ∧ userSel users tu td m2 = some fruit) then false
    else if (∃ pd, prevDay td = some pd ∧ ∃ m : Meal, userSel users tu pd m = some fruit) then false
    else if 2 ≤ ownUsage users tu (td, tm) fruit then false
    else true)

/-- The empty ballot: no selection at any slot. -/
def emptyBallot : Ballot := fun _ _ => none

/-- A ballot voting Apple for both Monday Lunch and Monday Dinner
(the spec's Scenario 2 ballot). -/
def ballotMonApple : Ballot := fun d m =>
  match d, m with
  | .Monday, .Lunch => some .Apple
  | .Monday, .Dinner => some .Apple
  | _, _ => none

/-- Two participants both voting Apple at Monday Lunch and Monday Dinner. -/
def twoUsersDemo : Users := [("User 1", ballotMonApple), ("User 2", ballotMonApple)]

/-- A ballot voting Apple at Monday Lunch and again at Tuesday Lunch. -/
def ballotConsec : Ballot := fun d m =>
  match d, m with
  | .Monday, .Lunch => some .Apple
  | .Tuesday, .Lunch => some .Apple
  | _, _ => none

/-- One participant with votes on two consecutive days. -/
def oneUserConsec : Users := [("User 1", ballotConsec)]

/-- A ballot with a single vote: Apple at Monday Lunch
(the spec's Scenario 1 ballot). -/
def ballotMonLunch : Ballot := fun d m =>
  match d, m with
  | .Monday, .Lunch => some .Apple
  | _, _ => none

/-- One participant with a single Apple vote at Monday Lunch. -/
def oneUserDemo : Users := [("User 1", ballotMonLunch)]

/-- A ballot with a single vote: Banana at Monday Lunch. -/
def ballotMonLunchBanana : Ballot := fun d m =>
  match d, m with
  | .Monday, .Lunch => some .Banana
  | _, _ => none

/-- Two participants voting different fruits at the same slot (a tie). -/
def tieUsers : Users := [("User 1", ballotMonLunch), ("User 2", ballotMonLunchBanana)]

/-- The same two ballots registered in the opposite order. -/
def tieUsersSwapped : Users := [("User 2", ballotMonLunchBanana), ("User 1", ballotMonLunch)]

/-- A ballot voting Apple at Tuesday Lunch only. -/
def ballotTueApple : Ballot := fun d m =>
  match d, m with
  | .Tuesday, .Lunch => some .Apple
  | _, _ => none

/-- One participant voting Apple on Tuesday only: the adjacency
counterexample input for the availability filter. -/
def cexUsers : Users := [("User 1", ballotTueApple)]

/-- A scheduler state whose usage counters are all saturated at the cap;
used to exhibit the forced-selection branch at a single slot. -/
def stCapFull : AllocState :=
  { plan := [], fruitUsage := fun _ => 2, violations := [] }

/-- The "No selection" assignment recorded for a slot with no votes,
parameterized by the number of registered users. -/
def noSelection (n : Nat) : Assignment :=
  { fruit := none, votes := 0, totalUsers := n, reason := "No selection", hasViolation := false }

/-- The invariant maintained while the scheduler walks the slot sequence:
`done` is the list of slots already processed, in order.  It packages the
coverage, usage-count, usage-cap, same-day and adjacency properties. -/
structure Inv (done : List (Day × Meal)) (st : AllocState) : Prop where
  keys : st.plan.map Prod.fst = done
  usage_eq : ∀ f, st.fruitUsage f = cntFruit st.plan f
  cap : ∀ f, (∀ e ∈ st.plan, e.2.fruit = some f → e.2.hasViolation = false) →
    st.fruitUsage f ≤ 2
  sameday : ∀ d a1 a2 f, planFind st.plan d .Lunch = some a1 →
    planFind st.plan d .Dinner = some a2 →
    a1.fruit = some f → a2.fruit = some f →
    a1.hasViolation = true ∨ a2.hasViolation = true
  adj : ∀ pd d2 m1 m2 a1 a2 f, prevDay d2 = some pd →
    planFind st.plan pd m1 = some a1 → planFind st.plan d2 m2 = some a2 →
    a1.fruit = some f → a2.fruit = some f →
    a1.hasViolation = true ∨ a2.hasViolation = true

/-! ### Basic facts about the fixed vocabularies -/

theorem mem_meals (m : Meal) : m ∈ meals := by cases m <;> simp [meals]

theorem mem_fruits (f : Fruit) : f ∈ fruits := by cases f <;> simp [fruits]

theorem prevDay_ne_self (d pd : Day) (h : prevDay d = some pd) : pd ≠ d := by
  revert h
  revert pd
  cases d <;> decide

/-! ### Lookup lemmas for the plan association list -/

theorem planFind_append_other (p : Plan) (e : (Day × Meal) × Assignment) (d : Day) (m : Meal)
    (h : (d, m) ≠ e.1) : planFind (p ++ [e]) d m = planFind p d m := by
  unfold planFind
  rw [List.find?_append]
  cases hf : p.find? (fun x => decide (x.1 = (d, m))) with
  | some a => simp [hf]
  | none =>
    have he : (fun x => decide (x.1 = (d, m))) e = false := by
      simp only [decide_eq_false_iff_not]
      intro hc
      exact h (by rw [hc])
    simp [hf, List.find?, he]

theorem planFind_append_self (p : Plan) (d : Day) (m : Meal) (a : Assignment)
    (h : (d, m) ∉ p.map Prod.fst) : planFind (p ++ [((d, m), a)]) d m = some a := by
  unfold planFind
  rw [List.find?_append]
  have hnone : p.find? (fun x => decide (x.1 = (d, m))) = none := by
    rw [List.find?_eq_none]
    intro x hx
    simp only [decide_eq_true_eq]
    intro hc
    exact h (by
      rw [← hc]
      exact List.mem_map_of_mem Prod.fst hx)
  simp [hnone, List.find?]

theorem planFruit_append_other (p : Plan) (e : (Day × Meal) × Assignment) (d : Day) (m : Meal)
    (h : (d, m) ≠ e.1) : planFruit (p ++ [e]) d m = planFruit p d m := by
  unfold planFruit
  rw [planFind_append_other p e d m h]

theorem planFind_eq_none_of_not_mem (p : Plan) (d : Day) (m : Meal)
    (h : (d, m) ∉ p.map Prod.fst) : planFind p d m = none := by
  unfold planFind
  have hnone : p.find? (fun x => decide (x.1 = (d, m))) = none := by
    rw [List.find?_eq_none]
    intro x hx
    simp only [decide_eq_true_eq]
    intro hc
    exact h (by
      rw [← hc]
      exact List.mem_map_of_mem Prod.fst hx)
  simp [hnone]

/-! ### The candidate walk -/

theorem selectLoop_fst_some (p : Plan) (u : Fruit → Nat) (d : Day) (m : Meal) :
    ∀ (l : List (Fruit × Nat)) (c : Fruit × Nat),
      (selectLoop p u d m l).1 = some c →
      c ∈ l ∧ checkCandidate p u d m c.1 = none := by
  intro l
  induction l with
  | nil => intro c h; simp [selectLoop] at h
  | cons c0 rest ih =>
    intro c h
    unfold selectLoop at h
    cases hck : checkCandidate p u d m c0.1 with
    | none =>
      rw [hck] at h
      simp only at h
      obtain rfl : c0 = c := by simpa using h
      exact ⟨List.mem_cons_self _ _, hck⟩
    | some r =>
      rw [hck] at h
      simp only at h
      obtain ⟨hc, hck2⟩ := ih c h
      exact ⟨List.mem_cons_of_mem _ hc, hck2⟩

theorem selectLoop_snd_eq (p : Plan) (u : Fruit → Nat) (d : Day) (m : Meal) :
    ∀ l : List (Fruit × Nat),
      (selectLoop p u d m l).2 =
        (l.takeWhile (fun c => (checkCandidate p u d m c.1).isSome)).map
          (fun c => { day := d, meal := m, fruit := c.1,
                      reason := (checkCandidate p u d m c.1).getD "", votes := c.2 }) := by
  intro l
  induction l with
  | nil => simp [selectLoop]
  | cons c0 rest ih =>
    unfold selectLoop
    cases hck : checkCandidate p u d m c0.1 with
    | none => simp [List.takeWhile_cons, hck]
    | some r => simp [List.takeWhile_cons, hck, ih]

/-! ### The constraint evaluator -/

theorem sameDayHit_eq_false_iff (p : Plan) (d : Day) (m : Meal) (f : Fruit) :
    sameDayHit p d m f = false ↔ ∀ m2 : Meal, m2 ≠ m → planFruit p d m2 ≠ some f := by
  unfold sameDayHit currentDaySelections
  simp only [decide_eq_false_iff_not, List.mem_filterMap, List.mem_filter,
    decide_eq_true_eq, not_exists, not_and]
  constructor
  · intro h m2 hm2 hf
    exact h m2 ⟨mem_meals m2, hm2⟩ hf
  · intro h m2 hm2 hf
    exact h m2 hm2.2 hf

theorem adjacentHit_eq_false_iff (p : Plan) (d : Day) (f : Fruit) :
    adjacentHit p d f = false ↔
      ∀ pd, prevDay d = some pd →
        planFruit p pd .Lunch ≠ some f ∧ planFruit p pd .Dinner ≠ some f := by
  unfold adjacentHit
  cases hp : prevDay d with
  | none => simp
  | some pd => simp [hp]

theorem checkCandidate_none_iff (p : Plan) (u : Fruit → Nat) (d : Day) (m : Meal) (f : Fruit) :
    checkCandidate p u d m f = none ↔
      sameDayHit p d m f = false ∧ adjacentHit p d f = false ∧ u f < 2 := by
  unfold checkCandidate
  cases hsd : sameDayHit p d m f <;> cases had : adjacentHit p d f <;>
    cases hcap : capHit u f <;>
      simp_all [capHit, decide_eq_false_iff_not, decide_eq_true_eq, Nat.not_le, Nat.lt_of_not_le]

/-! ### The per-slot selection -/

theorem slotAssignment_fruit (users : Users) (st : AllocState) (d : Day) (m : Meal) :
    (slotAssignment users st d m).fruit = (slotChoice users st d m).1 := by
  unfold slotAssignment
  rcases hc : slotChoice users st d m with ⟨_ | f, r, hv⟩ <;> simp [hc]

theorem slotChoice_legal (users : Users) (st : AllocState) (d : Day) (m : Meal)
    (g : Fruit) (r : String) (h : slotChoice users st d m = (some g, r, false)) :
    checkCandidate st.plan st.fruitUsage d m g = none := by
  unfold slotChoice at h
  cases hsel : (selectLoop st.plan st.fruitUsage d m (sortedCandidates users d m)).1 with
  | some c =>
    rw [hsel] at h
    simp only [Prod.mk.injEq, Option.some.injEq] at h
    obtain ⟨rfl, -, -⟩ := h
    exact (selectLoop_fst_some st.plan st.fruitUsage d m _ c hsel).2
  | none =>
    rw [hsel] at h
    cases hc : sortedCandidates users d m with
    | nil => rw [hc] at h; simp at h
    | cons c0 rest => rw [hc] at h; simp at h

theorem slotAssignment_legal (users : Users) (st : AllocState) (d : Day) (m : Meal) (f : Fruit)
    (hf : (slotAssignment users st d m).fruit = some f)
    (hv : (slotAssignment users st d m).hasViolation = false) :
    checkCandidate st.plan st.fruitUsage d m f = none := by
  unfold slotAssignment at hf hv
  rcases hc : slotChoice users st d m with ⟨_ | g, r, b⟩ <;> rw [hc] at hf hv
  · simp at hf
  · simp only [Option.some.injEq] at hf hv
    subst hf
    subst hv
    exact slotChoice_legal users st d m _ r hc

/-! ### The scheduler's running invariant -/

theorem cntFruit_append (p : Plan) (e : (Day × Meal) × Assignment) (f : Fruit) :
    cntFruit (p ++ [e]) f = cntFruit p f + (if e.2.fruit = some f then 1 else 0) := by
  unfold cntFruit
  rw [List.filter_append, List.length_append]
  congr 1
  by_cases h : e.2.fruit = some f <;> simp [h, List.filter]

theorem slotAssignment_of_choice_some (users : Users) (st : AllocState) (d : Day) (m : Meal)
    (g : Fruit) (r : String) (b : Bool) (hc : slotChoice users st d m = (some g, r, b)) :
    slotAssignment users st d m =
      { fruit := some g, votes := voteCounts users d m g, totalUsers := users.length,
        reason := r, hasViolation := b } := by
  unfold slotAssignment
  rw [hc]

theorem inv_initState : Inv [] initState := by
  refine ⟨rfl, fun f => rfl, fun f _ => by simp [initState], ?_, ?_⟩
  · intro d a1 a2 f h1
    simp [initState, planFind] at h1
  · intro pd d2 m1 m2 a1 a2 f _ h1
    simp [initState, planFind] at h1

theorem inv_processSlot (users : Users) (done : List (Day × Meal)) (st : AllocState)
    (d : Day) (m : Meal) (h : Inv done st)
    (hfresh : (d, m) ∉ done)
    (hnext : ∀ d2 m2, prevDay d2 = some d → (d2, m2) ∉ done) :
    Inv (done ++ [(d, m)]) (processSlot users st d m) := by
  have hfreshp : (d, m) ∉ st.plan.map Prod.fst := by rw [h.keys]; exact hfresh
  have hplan : (processSlot users st d m).plan =
      st.plan ++ [((d, m), slotAssignment users st d m)] := rfl
  have husage : (processSlot users st d m).fruitUsage =
      bumpUsage st.fruitUsage (slotChoice users st d m).1 := rfl
  refine ⟨?_, ?_, ?_, ?_, ?_⟩
  · -- keys
    rw [hplan, List.map_append, h.keys]
    rfl
  · -- usage_eq
    intro f
    rw [hplan, husage, cntFruit_append, ← h.usage_eq f, slotAssignment_fruit]
    cases hc : (slotChoice users st d m).1 with
    | none => simp [bumpUsage]
    | some g =>
      by_cases hfg : f = g
      · subst hfg
        simp [bumpUsage]
      · simp [bumpUsage, hfg, Ne.symm hfg]
  · -- cap
    intro f hall
    rw [hplan] at hall
    have hallold : ∀ e ∈ st.plan, e.2.fruit = some f → e.2.hasViolation = false := by
      intro e he hef
      exact hall e (List.mem_append_left _ he) hef
    rw [husage]
    rcases hc : slotChoice users st d m with ⟨_ | g, r, b⟩
    · exact h.cap f hallold
    · by_cases hfg : f = g
      · subst hfg
        cases b with
        | false =>
          have hleg := slotChoice_legal users st d m f r hc
          have hlt := ((checkCandidate_none_iff st.plan st.fruitUsage d m f).mp hleg).2.2
          simp [bumpUsage]
          omega
        | true =>
          have hA := slotAssignment_of_choice_some users st d m f r true hc
          have := hall ((d, m), slotAssignment users st d m)
            (List.mem_append_right _ (List.mem_singleton_self _)) (by rw [hA])
          rw [hA] at this
          simp at this
      · simp only [bumpUsage, if_neg (fun hgf : f = g => hfg hgf)]
        exact h.cap f hallold
  · -- sameday
    intro d0 a1 a2 f h1 h2 hf1 hf2
    rw [hplan] at h1 h2
    by_cases hL : (d0, Meal.Lunch) = (d, m)
    · rw [Prod.mk.injEq] at hL
      obtain ⟨rfl, rfl⟩ := hL
      rw [planFind_append_self st.plan d0 .Lunch _ hfreshp] at h1
      rw [planFind_append_other st.plan _ d0 .Dinner (by simp)] at h2
      have ha1 : a1 = slotAssignment users st d0 .Lunch := (Option.some.inj h1).symm
      cases hv : a1.hasViolation with
      | true => exact Or.inl rfl
      | false =>
        exfalso
        have hleg := slotAssignment_legal users st d0 .Lunch f (ha1 ▸ hf1) (ha1 ▸ hv)
        have hsd := ((checkCandidate_none_iff st.plan st.fruitUsage d0 .Lunch f).mp hleg).1
        have := (sameDayHit_eq_false_iff st.plan d0 .Lunch f).mp hsd .Dinner (by decide)
        exact this (by simp [planFruit, h2, hf2])
    · by_cases hD : (d0, Meal.Dinner) = (d, m)
      · rw [Prod.mk.injEq] at hD
        obtain ⟨rfl, rfl⟩ := hD
        rw [planFind_append_self st.plan d0 .Dinner _ hfreshp] at h2
        rw [planFind_append_other st.plan _ d0 .Lunch (by simp)] at h1
        have ha2 : a2 = slotAssignment users st d0 .Dinner := (Option.some.inj h2).symm
        cases hv : a2.hasViolation with
        | true => exact Or.inr rfl
        | false =>
          exfalso
          have hleg := slotAssignment_legal users st d0 .Dinner f (ha2 ▸ hf2) (ha2 ▸ hv)
          have hsd := ((checkCandidate_none_iff st.plan st.fruitUsage d0 .Dinner f).mp hleg).1
          have := (sameDayHit_eq_false_iff st.plan d0 .Dinner f).mp hsd .Lunch (by decide)
          exact this (by simp [planFruit, h1, hf1])
      · rw [planFind_append_other st.plan _ d0 .Lunch hL] at h1
        rw [planFind_append_other st.plan _ d0 .Dinner hD] at h2
        exact h.sameday d0 a1 a2 f h1 h2 hf1 hf2
  · -- adjacency
    intro pd d2 m1 m2 a1 a2 f hprev h1 h2 hf1 hf2
    rw [hplan] at h1 h2
    by_cases hF : (d2, m2) = (d, m)
    · rw [Prod.mk.injEq] at hF
      obtain ⟨rfl, rfl⟩ := hF
      rw [planFind_append_self st.plan d2 m2 _ hfreshp] at h2
      have hpd : pd ≠ d2 := prevDay_ne_self d2 pd hprev
      rw [planFind_append_other st.plan _ pd m1 (by simp [hpd])] at h1
      have ha2 : a2 = slotAssignment users st d2 m2 := (Option.some.inj h2).symm
      cases hv : a2.hasViolation with
      | true => exact Or.inr rfl
      | false =>
        exfalso
        have hleg := slotAssignment_legal users st d2 m2 f (ha2 ▸ hf2) (ha2 ▸ hv)
        have had := ((checkCandidate_none_iff st.plan st.fruitUsage d2 m2 f).mp hleg).2.1
        have hboth := (adjacentHit_eq_false_iff st.plan d2 f).mp had pd hprev
        cases m1 with
        | Lunch => exact hboth.1 (by simp [planFruit, h1, hf1])
        | Dinner => exact hboth.2 (by simp [planFruit, h1, hf1])
    · by_cases hE : (pd, m1) = (d, m)
      · rw [Prod.mk.injEq] at hE
        obtain ⟨rfl, rfl⟩ := hE
        exfalso
        have hnd : (d2, m2) ∉ st.plan.map Prod.fst := by
          rw [h.keys]
          exact hnext d2 m2 hprev
        rw [planFind_append_other st.plan _ d2 m2 hF] at h2
        rw [planFind_eq_none_of_not_mem st.plan d2 m2 hnd] at h2
        exact Option.noConfusion h2
      · rw [planFind_append_other st.plan _ pd m1 hE] at h1
        rw [planFind_append_other st.plan _ d2 m2 hF] at h2
        exact h.adj pd d2 m1 m2 a1 a2 f hprev h1 h2 hf1 hf2

/-! ### Chaining the invariant through the twelve slots -/

theorem allocate_eq_chain (users : Users) :
    allocate users =
      processSlot users (processSlot users (processSlot users (processSlot users
        (processSlot users (processSlot users (processSlot users (processSlot users
        (processSlot users (processSlot users (processSlot users (processSlot users
        initState .Monday .Lunch) .Monday .Dinner) .Tuesday .Lunch) .Tuesday .Dinner)
        .Wednesday .Lunch) .Wednesday .Dinner) .Thursday .Lunch) .Thursday .Dinner)
        .Friday .Lunch) .Friday .Dinner) .Saturday .Lunch) .Saturday .Dinner := rfl

theorem inv_allocate (users : Users) : Inv slots (allocate users) := by
  have h1 := inv_processSlot users _ _ .Monday .Lunch inv_initState (by decide) (by decide)
  have h2 := inv_processSlot users _ _ .Monday .Dinner h1 (by decide) (by decide)
  have h3 := inv_processSlot users _ _ .Tuesday .Lunch h2 (by decide) (by decide)
  have h4 := inv_processSlot users _ _ .Tuesday .Dinner h3 (by decide) (by decide)
  have h5 := inv_processSlot users _ _ .Wednesday .Lunch h4 (by decide) (by decide)
  have h6 := inv_processSlot users _ _ .Wednesday .Dinner h5 (by decide) (by decide)
  have h7 := inv_processSlot users _ _ .Thursday .Lunch h6 (by decide) (by decide)
  have h8 := inv_processSlot users _ _ .Thursday .Dinner h7 (by decide) (by decide)
  have h9 := inv_processSlot users _ _ .Friday .Lunch h8 (by decide) (by decide)
  have h10 := inv_processSlot users _ _ .Friday .Dinner h9 (by decide) (by decide)
  have h11 := inv_processSlot users _ _ .Saturday .Lunch h10 (by decide) (by decide)
  have h12 := inv_processSlot users _ _ .Saturday .Dinner h11 (by decide) (by decide)
  rw [allocate_eq_chain]
  exact h12

/-! ### Claim theorems -/

/-- C1: for every ballot set, the returned plan contains exactly one
assignment for every slot of the canonical set (the 6 days Monday
through Saturday, each paired with Lunch and Dinner): the plan's key
sequence is exactly the canonical slot sequence, and each canonical slot
owns exactly one plan entry. -/
theorem plan_covers_every_slot_once (users : Users) :
    (allocate users).plan.map Prod.fst = slots ∧
    ∀ s ∈ slots, ((allocate users).plan.filter (fun e => decide (e.1 = s))).length = 1 := by
  have hkeys := (inv_allocate users).keys
  refine ⟨hkeys, ?_⟩
  intro s hs
  have hmap : ((allocate users).plan.filter (fun e => decide (e.1 = s))).length =
      (((allocate users).plan.map Prod.fst).filter (fun x => decide (x = s))).length := by
    rw [List.filter_map, List.length_map]
    rfl
  have hone : ∀ t : Day × Meal, t ∈ slots →
      (slots.filter (fun x => decide (x = t))).length = 1 := by decide
  rw [hmap, hkeys]
  exact hone s hs

/-- C2: for every ballot set and every item, the number of plan slots
assigned that item is at most 2 (the cap), unless at least one
assignment of that item in the plan carries `hasViolation = true`. -/
theorem item_usage_capped_or_flagged (users : Users) (f : Fruit) :
    cntFruit (allocate users).plan f ≤ 2 ∨
      ∃ e ∈ (allocate users).plan, e.2.fruit = some f ∧ e.2.hasViolation = true := by
  by_cases hall : ∀ e ∈ (allocate users).plan, e.2.fruit = some f → e.2.hasViolation = false
  · left
    rw [← (inv_allocate users).usage_eq f]
    exact (inv_allocate users).cap f hall
  · right
    push_neg at hall
    obtain ⟨e, he, hef, hev⟩ := hall
    exact ⟨e, he, hef, by simpa using hev⟩

/-- C3: for every ballot set and every day, if the Lunch and Dinner
assignments of that day both carry the same non-null item, then at least
one of the two carries `hasViolation = true`. -/
theorem sameday_shared_item_flagged (users : Users) (d : Day) (a1 a2 : Assignment) (f : Fruit)
    (h1 : planFind (allocate users).plan d .Lunch = some a1)
    (h2 : planFind (allocate users).plan d .Dinner = some a2)
    (hf1 : a1.fruit = some f) (hf2 : a2.fruit = some f) :
    a1.hasViolation = true ∨ a2.hasViolation = true :=
  (inv_allocate users).sameday d a1 a2 f h1 h2 hf1 hf2

/-- Concrete evaluation of the scheduler on the Scenario 2 ballots: the
full plan, entry by entry. -/
theorem allocate_twoUsersDemo_plan :
    (allocate twoUsersDemo).plan =
      [((.Monday, .Lunch),
        { fruit := some .Apple, votes := 2, totalUsers := 2,
          reason := "2 votes, no violations", hasViolation := false }),
       ((.Monday, .Dinner),
        { fruit := some .Apple, votes := 2, totalUsers := 2,
          reason := "Forced selection (2 votes)", hasViolation := true }),
       ((.Tuesday, .Lunch), noSelection 2), ((.Tuesday, .Dinner), noSelection 2),
       ((.Wednesday, .Lunch), noSelection 2), ((.Wednesday, .Dinner), noSelection 2),
       ((.Thursday, .Lunch), noSelection 2), ((.Thursday, .Dinner), noSelection 2),
       ((.Friday, .Lunch), noSelection 2), ((.Friday, .Dinner), noSelection 2),
       ((.Saturday, .Lunch), noSelection 2), ((.Saturday, .Dinner), noSelection 2)] := by
  rw [allocate_eq_chain]
  simp +decide [processSlot, slotChoice, slotAssignment, selectLoop, checkCandidate,
    sameDayHit, adjacentHit, capHit, currentDaySelections, planFruit, planFind,
    sortedCandidates, List.mergeSort, List.merge, voteCounts, twoUsersDemo, ballotMonApple,
    initState, bumpUsage, prevDay, days, meals, fruits, noSelection]

/-- Witness for C3 at a concrete input: two participants both voting
Apple at Monday Lunch and Monday Dinner (the spec's Scenario 2); Monday
Dinner is force-selected and flagged. -/
theorem sameday_shared_item_flagged_witness :
    ({ fruit := some Fruit.Apple, votes := 2, totalUsers := 2,
       reason := "2 votes, no violations", hasViolation := false } : Assignment).hasViolation = true ∨
    ({ fruit := some Fruit.Apple, votes := 2, totalUsers := 2,
       reason := "Forced selection (2 votes)", hasViolation := true } : Assignment).hasViolation = true :=
  sameday_shared_item_flagged twoUsersDemo .Monday _ _ .Apple
    (by rw [allocate_twoUsersDemo_plan]; decide) (by rw [allocate_twoUsersDemo_plan]; decide)
    (by decide) (by decide)

/-- C10: for every ballot set, the per-item usage map returned by
allocation equals the per-item count of plan entries carrying that item
(forced selections included, null assignments contributing nothing), and
the summary's over-used list is exactly the catalog items occurring more
than twice in the plan. -/
theorem usage_counts_equal_plan_counts (users : Users) :
    (∀ f, (allocate users).fruitUsage f = cntFruit (allocate users).plan f) ∧
    overUsedFruits (allocate users) =
      fruits.filter (fun f => decide (2 < cntFruit (allocate users).plan f)) := by
  refine ⟨(inv_allocate users).usage_eq, ?_⟩
  unfold overUsedFruits
  exact List.filter_congr (fun f _ => by rw [(inv_allocate users).usage_eq f])

/-! ### Congruence and locality of the scheduler -/

theorem processSlot_congr (users users' : Users) (st : AllocState) (d : Day) (m : Meal)
    (hlen : users.length = users'.length)
    (hv : ∀ f, voteCounts users d m f = voteCounts users' d m f) :
    processSlot users st d m = processSlot users' st d m := by
  have hsc : sortedCandidates users d m = sortedCandidates users' d m := by
    unfold sortedCandidates
    simp only [hv]
  have hch : slotChoice users st d m = slotChoice users' st d m := by
    unfold slotChoice
    rw [hsc]
  have hsa : slotAssignment users st d m = slotAssignment users' st d m := by
    unfold slotAssignment
    rw [hch]
    simp only [hv, hlen]
  unfold processSlot
  rw [hsa, hch, hsc]

theorem processDay_congr (users users' : Users) (st : AllocState) (d : Day)
    (hlen : users.length = users'.length)
    (hv : ∀ m f, voteCounts users d m f = voteCounts users' d m f) :
    processDay users st d = processDay users' st d := by
  unfold processDay
  simp only [meals, List.foldl]
  rw [processSlot_congr users users' st d .Lunch hlen (hv .Lunch)]
  rw [processSlot_congr users users' _ d .Dinner hlen (hv .Dinner)]

theorem foldDays_congr (users users' : Users) (hlen : users.length = users'.length) :
    ∀ (ds : List Day) (st : AllocState),
      (∀ d ∈ ds, ∀ m f, voteCounts users d m f = voteCounts users' d m f) →
      ds.foldl (processDay users) st = ds.foldl (processDay users') st := by
  intro ds
  induction ds with
  | nil => intro st _; rfl
  | cons d rest ih =>
    intro st hv
    simp only [List.foldl_cons]
    rw [processDay_congr users users' st d hlen (hv d (List.mem_cons_self d rest))]
    exact ih _ (fun d2 hd2 m f => hv d2 (List.mem_cons_of_mem d hd2) m f)

theorem processDay_plan_append (users : Users) (st : AllocState) (d : Day) :
    ∃ u, (processDay users st d).plan = st.plan ++ u :=
  ⟨[((d, Meal.Lunch), slotAssignment users st d .Lunch),
    ((d, Meal.Dinner), slotAssignment users (processSlot users st d .Lunch) d .Dinner)],
   by simp [processDay, meals, processSlot]⟩

theorem foldDays_plan_append (users : Users) :
    ∀ (ds : List Day) (st : AllocState),
      ∃ t, (ds.foldl (processDay users) st).plan = st.plan ++ t := by
  intro ds
  induction ds with
  | nil => intro st; exact ⟨[], by simp⟩
  | cons d rest ih =>
    intro st
    obtain ⟨t2, ht2⟩ := ih (processDay users st d)
    obtain ⟨u, hu⟩ := processDay_plan_append users st d
    refine ⟨u ++ t2, ?_⟩
    simp only [List.foldl_cons]
    rw [ht2, hu, List.append_assoc]

theorem foldDays_plan_length (users : Users) :
    ∀ (ds : List Day) (st : AllocState),
      (ds.foldl (processDay users) st).plan.length = st.plan.length + 2 * ds.length := by
  intro ds
  induction ds with
  | nil => intro st; simp
  | cons d rest ih =>
    intro st
    simp only [List.foldl_cons]
    rw [ih (processDay users st d)]
    obtain ⟨u, hu⟩ := processDay_plan_append users st d
    have hlu : u.length = 2 := by
      have h2 : (processDay users st d).plan.length = st.plan.length + 2 := by
        show ((processSlot users (processSlot users st d .Lunch) d .Dinner)).plan.length =
          st.plan.length + 2
        simp [processSlot]
      rw [hu, List.length_append] at h2
      omega
    rw [hu, List.length_append, hlu, List.length_cons]
    ring

theorem allocate_take_prefix (users users' : Users) (k : Nat)
    (hlen : users.length = users'.length)
    (hv : ∀ d ∈ days.take k, ∀ m f, voteCounts users d m f = voteCounts users' d m f) :
    (allocate users).plan.take (2 * k) = (allocate users').plan.take (2 * k) := by
  rcases le_or_lt k 6 with hk | hk
  · unfold allocate
    rw [← List.take_append_drop k days, List.foldl_append, List.foldl_append]
    have hA : (days.take k).foldl (processDay users) initState =
        (days.take k).foldl (processDay users') initState :=
      foldDays_congr users users' hlen (days.take k) initState hv
    obtain ⟨t, ht⟩ := foldDays_plan_append users (days.drop k)
      ((days.take k).foldl (processDay users) initState)
    obtain ⟨t', ht'⟩ := foldDays_plan_append users' (days.drop k)
      ((days.take k).foldl (processDay users') initState)
    rw [ht, ht', ← hA]
    have hlenA : ((days.take k).foldl (processDay users) initState).plan.length = 2 * k := by
      rw [foldDays_plan_length users (days.take k) initState]
      have : (days.take k).length = k := by
        rw [List.length_take]
        have : days.length = 6 := rfl
        omega
      simp [initState, this]
    rw [List.take_left' hlenA, List.take_left' hlenA]
  · have hdays : days.take k = days := by
      apply List.take_of_length_le
      have : days.length = 6 := rfl
      omega
    rw [hdays] at hv
    have : allocate users = allocate users' :=
      foldDays_congr users users' hlen days initState hv
    rw [this]

/-- C4: (i) for every ballot set and every pair of consecutive days in
the canonical order (`prevDay d2 = some d`), if an assignment of the
earlier day and an assignment of the later day share the same non-null
item, then at least one of the two carries `hasViolation = true`;
(ii) the scheduler only consults already-finalized days: the plan prefix
for the first `k` days depends only on the votes for those days (and the
registered user count), so a future day's votes never block a candidate. -/
theorem adjacent_shared_item_flagged_and_prev_only :
    (∀ (users : Users) (d2 d : Day) (m m2 : Meal) (a a2 : Assignment) (f : Fruit),
      prevDay d2 = some d →
      planFind (allocate users).plan d m = some a →
      planFind (allocate users).plan d2 m2 = some a2 →
      a.fruit = some f → a2.fruit = some f →
      a.hasViolation = true ∨ a2.hasViolation = true) ∧
    (∀ (users users' : Users) (k : Nat),
      users.length = users'.length →
      (∀ d ∈ days.take k, ∀ m f, voteCounts users d m f = voteCounts users' d m f) →
      (allocate users).plan.take (2 * k) = (allocate users').plan.take (2 * k)) := by
  constructor
  · intro users d2 d m m2 a a2 f hprev h1 h2 hf1 hf2
    exact (inv_allocate users).adj d d2 m m2 a a2 f hprev h1 h2 hf1 hf2
  · intro users users' k hlen hv
    exact allocate_take_prefix users users' k hlen hv

/-- Concrete evaluation of the scheduler on one participant voting Apple
at Monday Lunch and again at Tuesday Lunch: the Tuesday repeat is
force-selected against the consecutive-days rule. -/
theorem allocate_oneUserConsec_plan :
    (allocate oneUserConsec).plan =
      [((.Monday, .Lunch),
        { fruit := some .Apple, votes := 1, totalUsers := 1,
          reason := "1 votes, no violations", hasViolation := false }),
       ((.Monday, .Dinner), noSelection 1),
       ((.Tuesday, .Lunch),
        { fruit := some .Apple, votes := 1, totalUsers := 1,
          reason := "Forced selection (1 votes)", hasViolation := true }),
       ((.Tuesday, .Dinner), noSelection 1),
       ((.Wednesday, .Lunch), noSelection 1), ((.Wednesday, .Dinner), noSelection 1),
       ((.Thursday, .Lunch), noSelection 1), ((.Thursday, .Dinner), noSelection 1),
       ((.Friday, .Lunch), noSelection 1), ((.Friday, .Dinner), noSelection 1),
       ((.Saturday, .Lunch), noSelection 1), ((.Saturday, .Dinner), noSelection 1)] := by
  rw [allocate_eq_chain]
  simp +decide [processSlot, slotChoice, slotAssignment, selectLoop, checkCandidate,
    sameDayHit, adjacentHit, capHit, currentDaySelections, planFruit, planFind,
    sortedCandidates, List.mergeSort, List.merge, voteCounts, oneUserConsec, ballotConsec,
    initState, bumpUsage, prevDay, days, meals, fruits, noSelection]

/-- Witness for C4 at concrete inputs: (i) one participant voting Apple
on Monday and Tuesday — the Tuesday assignment is flagged; (ii) a
one-day vote agreement between two different two-user ballot sets forces
agreement of the two-entry plan prefix. -/
theorem adjacent_shared_item_flagged_and_prev_only_witness :
    (({ fruit := some Fruit.Apple, votes := 1, totalUsers := 1,
        reason := "1 votes, no violations", hasViolation := false } : Assignment).hasViolation = true ∨
     ({ fruit := some Fruit.Apple, votes := 1, totalUsers := 1,
        reason := "Forced selection (1 votes)", hasViolation := true } : Assignment).hasViolation = true) ∧
    (allocate tieUsers).plan.take (2 * 1) = (allocate tieUsersSwapped).plan.take (2 * 1) :=
  ⟨adjacent_shared_item_flagged_and_prev_only.1 oneUserConsec .Tuesday .Monday .Lunch .Lunch
      _ _ .Apple rfl
      (by rw [allocate_oneUserConsec_plan]; decide)
      (by rw [allocate_oneUserConsec_plan]; decide)
      (by decide) (by decide),
   adjacent_shared_item_flagged_and_prev_only.2 tieUsers tieUsersSwapped 1 rfl (by decide)⟩

/-! ### Empty ballot set, forced selections, and missing selections -/

theorem allocate_nil_plan :
    (allocate ([] : Users)).plan = slots.map (fun s => (s, noSelection 0)) := by
  rw [allocate_eq_chain]
  simp +decide [processSlot, slotChoice, slotAssignment, selectLoop, checkCandidate,
    sameDayHit, adjacentHit, capHit, currentDaySelections, planFruit, planFind,
    sortedCandidates, List.mergeSort, List.merge, voteCounts, initState, bumpUsage,
    prevDay, days, meals, fruits, noSelection, slots]

theorem allocate_nil_violations : (allocate ([] : Users)).violations = [] := by
  rw [allocate_eq_chain]
  simp +decide [processSlot, slotChoice, slotAssignment, selectLoop, checkCandidate,
    sameDayHit, adjacentHit, capHit, currentDaySelections, planFruit, planFind,
    sortedCandidates, List.mergeSort, List.merge, voteCounts, initState, bumpUsage,
    prevDay, days, meals, fruits]

theorem allocate_nil_summary :
    summaryString (allocate ([] : Users)) = "0 constraint conflicts, 0 fruits over-used" := by
  unfold summaryString overUsedFruits
  rw [allocate_nil_violations]
  have hu := (inv_allocate ([] : Users)).usage_eq
  simp only [hu, allocate_nil_plan]
  decide

theorem sortedCandidates_zero_of_no_votes (users : Users) (d : Day) (m : Meal)
    (hz : ∀ f, voteCounts users d m f = 0) : sortedCandidates users d m = [] := by
  unfold sortedCandidates
  rw [List.filter_eq_nil_iff]
  intro c hc
  rw [List.mem_mergeSort, List.mem_map] at hc
  obtain ⟨g, -, rfl⟩ := hc
  simp [hz g]

/-- C5: for every slot, (i) if the candidate walk finds no legal
candidate but the candidate list is non-empty, the scheduler
force-selects its head (the highest-voted candidate) with
`hasViolation = true` and reason "Forced selection (`<votes>` votes)";
(ii) if no item received a nonzero vote at the slot, the assignment is
the null record (no item, zero votes, reason "No selection", no
violation flag); and (iii) the empty ballot set yields a plan of all
"No selection" assignments, an empty violation log, and a summary
reporting zero conflicts. -/
theorem forced_and_no_selection_outcomes :
    (∀ (users : Users) (st : AllocState) (d : Day) (m : Meal),
      ((selectLoop st.plan st.fruitUsage d m (sortedCandidates users d m)).1 = none →
        ∀ c0 rest, sortedCandidates users d m = c0 :: rest →
          slotAssignment users st d m =
            { fruit := some c0.1, votes := voteCounts users d m c0.1,
              totalUsers := users.length,
              reason := "Forced selection (" ++ toString c0.2 ++ " votes)",
              hasViolation := true }) ∧
      ((∀ f, voteCounts users d m f = 0) →
        slotAssignment users st d m = noSelection users.length)) ∧
    ((allocate ([] : Users)).plan = slots.map (fun s => (s, noSelection 0)) ∧
     (allocate ([] : Users)).violations = [] ∧
     summaryString (allocate ([] : Users)) = "0 constraint conflicts, 0 fruits over-used") := by
  refine ⟨?_, allocate_nil_plan, allocate_nil_violations, allocate_nil_summary⟩
  intro users st d m
  constructor
  · intro h1 c0 rest hc
    unfold slotAssignment slotChoice
    rw [h1, hc]
  · intro hz
    have hc := sortedCandidates_zero_of_no_votes users d m hz
    unfold slotAssignment slotChoice
    rw [hc]
    rfl

/-- Evaluation of the candidate list at Monday Lunch for the single
Scenario 1 ballot. -/
theorem sortedCandidates_oneUserDemo :
    sortedCandidates oneUserDemo .Monday .Lunch = [(.Apple, 1)] := by
  unfold sortedCandidates
  simp +decide [List.mergeSort, List.merge, voteCounts, oneUserDemo, ballotMonLunch, fruits]

/-- Witness for C5 at concrete inputs: with every usage counter already
at the cap, the single Apple candidate is force-selected with the forced
reason and the violation flag; at a slot with no votes the null
assignment is produced. -/
theorem forced_and_no_selection_outcomes_witness :
    slotAssignment oneUserDemo stCapFull .Monday .Lunch =
      { fruit := some Fruit.Apple, votes := 1, totalUsers := 1,
        reason := "Forced selection (1 votes)", hasViolation := true } ∧
    slotAssignment oneUserDemo initState .Tuesday .Dinner = noSelection 1 :=
  ⟨(forced_and_no_selection_outcomes.1 oneUserDemo stCapFull .Monday .Lunch).1
      (by rw [sortedCandidates_oneUserDemo]; decide) (.Apple, 1) [] sortedCandidates_oneUserDemo,
   (forced_and_no_selection_outcomes.1 oneUserDemo initState .Tuesday .Dinner).2 (by decide)⟩

/-- C6: for every slot, the violation log entries contributed by the
candidate walk are exactly one entry per illegal candidate encountered
before the first legal candidate (each capturing day, meal, item, the
rejecting rule and the vote count); candidates ranked after the first
legal one contribute nothing, and the slot appends exactly
those walk entries to the accumulated log — in particular a forced
selection is not logged a second time beyond the entry it already
received while being rejected. -/
theorem violation_log_entries_exact (users : Users) (st : AllocState) (d : Day) (m : Meal) :
    (selectLoop st.plan st.fruitUsage d m (sortedCandidates users d m)).2 =
      ((sortedCandidates users d m).takeWhile
        (fun c => (checkCandidate st.plan st.fruitUsage d m c.1).isSome)).map
        (fun c => { day := d, meal := m, fruit := c.1,
                    reason := (checkCandidate st.plan st.fruitUsage d m c.1).getD "",
                    votes := c.2 }) ∧
    (processSlot users st d m).violations =
      st.violations ++ (selectLoop st.plan st.fruitUsage d m (sortedCandidates users d m)).2 :=
  ⟨selectLoop_snd_eq st.plan st.fruitUsage d m (sortedCandidates users d m), rfl⟩

/-! ### Positive characterizations of the constraint tests -/

theorem sameDayHit_eq_true_iff (p : Plan) (d : Day) (m : Meal) (f : Fruit) :
    sameDayHit p d m f = true ↔ ∃ m2 : Meal, m2 ≠ m ∧ planFruit p d m2 = some f := by
  unfold sameDayHit currentDaySelections
  simp only [decide_eq_true_eq, List.mem_filterMap, List.mem_filter, decide_eq_true_eq]
  constructor
  · rintro ⟨m2, ⟨-, hm2⟩, hf⟩
    exact ⟨m2, hm2, hf⟩
  · rintro ⟨m2, hm2, hf⟩
    exact ⟨m2, ⟨mem_meals m2, hm2⟩, hf⟩

theorem adjacentHit_eq_true_iff (p : Plan) (d : Day) (f : Fruit) :
    adjacentHit p d f = true ↔
      ∃ pd, prevDay d = some pd ∧
        (planFruit p pd .Lunch = some f ∨ planFruit p pd .Dinner = some f) := by
  unfold adjacentHit
  cases hp : prevDay d with
  | none => simp
  | some pd => simp [hp]

/-- C7: the constraint evaluator applies the three rules in the fixed
precedence order same-day exclusivity, then adjacency exclusivity, then
usage cap; the recorded rejection reason is exactly the first failing
rule, a candidate is legal exactly when all three pass, and a legal
selection is recorded with reason "`<votes>` votes, no violations". -/
theorem evaluator_precedence_and_reasons :
    (∀ (p : Plan) (u : Fruit → Nat) (d : Day) (m : Meal) (f : Fruit),
      (checkCandidate p u d m f = some "Same day rule" ↔
        (∃ m2 : Meal, m2 ≠ m ∧ planFruit p d m2 = some f)) ∧
      (checkCandidate p u d m f = some "Consecutive days rule" ↔
        (¬(∃ m2 : Meal, m2 ≠ m ∧ planFruit p d m2 = some f) ∧
         (∃ pd, prevDay d = some pd ∧
           (planFruit p pd .Lunch = some f ∨ planFruit p pd .Dinner = some f)))) ∧
      (checkCandidate p u d m f = some "Max 2 times per week rule" ↔
        (¬(∃ m2 : Meal, m2 ≠ m ∧ planFruit p d m2 = some f) ∧
         ¬(∃ pd, prevDay d = some pd ∧
           (planFruit p pd .Lunch = some f ∨ planFruit p pd .Dinner = some f)) ∧
         2 ≤ u f)) ∧
      (checkCandidate p u d m f = none ↔
        (¬(∃ m2 : Meal, m2 ≠ m ∧ planFruit p d m2 = some f) ∧
         ¬(∃ pd, prevDay d = some pd ∧
           (planFruit p pd .Lunch = some f ∨ planFruit p pd .Dinner = some f)) ∧
         u f < 2))) ∧
    (∀ (users : Users) (st : AllocState) (d : Day) (m : Meal) (f : Fruit) (v : Nat),
      (selectLoop st.plan st.fruitUsage d m (sortedCandidates users d m)).1 = some (f, v) →
      (slotAssignment users st d m).reason = toString v ++ " votes, no violations") := by
  constructor
  · intro p u d m f
    have hsdt := sameDayHit_eq_true_iff p d m f
    have hadt := adjacentHit_eq_true_iff p d f
    unfold checkCandidate
    cases h1 : sameDayHit p d m f <;> cases h2 : adjacentHit p d f <;>
      cases h3 : capHit u f <;>
        simp_all +decide [capHit, decide_eq_true_eq, decide_eq_false_iff_not, Nat.not_le]
  · intro users st d m f v h
    unfold slotAssignment slotChoice
    rw [h]

/-- Witness for C7's selection-reason clause at a concrete input: the
single Apple candidate with one vote is legal from the initial state and
its assignment reason is "1 votes, no violations". -/
theorem evaluator_precedence_and_reasons_witness :
    (slotAssignment oneUserDemo initState .Monday .Lunch).reason = "1 votes, no violations" :=
  evaluator_precedence_and_reasons.2 oneUserDemo initState .Monday .Lunch .Apple 1
    (by rw [sortedCandidates_oneUserDemo]; decide)

/-! ### Order of the candidate walk -/

theorem voteLe_trans (a b c : Fruit × Nat)
    (hab : decide (b.2 ≤ a.2) = true) (hbc : decide (c.2 ≤ b.2) = true) :
    decide (c.2 ≤ a.2) = true := by
  simp_all
  omega

theorem voteLe_total (a b : Fruit × Nat) :
    (decide (b.2 ≤ a.2) || decide (a.2 ≤ b.2)) = true := by
  simp
  omega

/-- C8: for every slot the scheduler walks candidates (i) in descending
order of vote count, (ii) containing exactly the items with nonzero
votes paired with their counts, (iii) with ties broken by the catalog's
declared item order (stability of the sort); and allocation is
deterministic: (iv) it depends only on the per-slot tallies and the user
count, and (v) re-running it on an unchanged ballot set yields the
identical result (immediate here, since the embedding is a pure
function). -/
theorem scheduler_candidate_order :
    (∀ (users : Users) (d : Day) (m : Meal),
      (sortedCandidates users d m).Pairwise (fun a b => b.2 ≤ a.2)) ∧
    (∀ (users : Users) (d : Day) (m : Meal) (f : Fruit) (v : Nat),
      (f, v) ∈ sortedCandidates users d m ↔ v = voteCounts users d m f ∧ 0 < v) ∧
    (∀ (users : Users) (d : Day) (m : Meal) (f g : Fruit) (v : Nat),
      [f, g].Sublist fruits → 0 < v →
      voteCounts users d m f = v → voteCounts users d m g = v →
      [(f, v), (g, v)].Sublist (sortedCandidates users d m)) ∧
    (∀ (users users' : Users),
      users.length = users'.length →
      (∀ d m f, voteCounts users d m f = voteCounts users' d m f) →
      allocate users = allocate users') ∧
    (∀ users : Users, allocate users = allocate users) := by
  refine ⟨?_, ?_, ?_, ?_, fun _ => rfl⟩
  · intro users d m
    have hs := List.sorted_mergeSort voteLe_trans voteLe_total
      (fruits.map (fun f => (f, voteCounts users d m f)))
    have hf := List.Pairwise.sublist
      (@List.filter_sublist (Fruit × Nat) (fun c => decide (0 < c.2))
        ((fruits.map (fun f => (f, voteCounts users d m f))).mergeSort
          (fun a b => decide (b.2 ≤ a.2)))) hs
    unfold sortedCandidates
    exact hf.imp (fun hab => by simpa using hab)
  · intro users d m f v
    unfold sortedCandidates
    rw [List.mem_filter, List.mem_mergeSort, List.mem_map]
    simp only [Prod.mk.injEq, decide_eq_true_eq]
    constructor
    · rintro ⟨⟨g, -, rfl, rfl⟩, hv⟩
      exact ⟨rfl, hv⟩
    · rintro ⟨rfl, hv⟩
      exact ⟨⟨f, mem_fruits f, rfl, rfl⟩, hv⟩
  · intro users d m f g v hsub hv hf hg
    unfold sortedCandidates
    have hbase : [(f, v), (g, v)].Sublist
        (fruits.map (fun x => (x, voteCounts users d m x))) := by
      have hm := hsub.map (fun x => (x, voteCounts users d m x))
      simpa [hf, hg] using hm
    have hmerge := List.pair_sublist_mergeSort voteLe_trans voteLe_total
      (by simp : decide ((g, v).2 ≤ (f, v).2) = true) hbase
    have hfil := hmerge.filter (fun c => decide (0 < c.2))
    simpa [hv] using hfil
  · intro users users' hlen hv
    exact foldDays_congr users users' hlen days initState (fun d _ m f => hv d m f)

/-- Witness for C8 at concrete inputs: two tied one-vote candidates
appear in catalog order (Apple before Banana), and two ballot sets with
the same tallies (the same ballots registered in opposite order) produce
the identical allocation result. -/
theorem scheduler_candidate_order_witness :
    [(Fruit.Apple, 1), (Fruit.Banana, 1)].Sublist (sortedCandidates tieUsers .Monday .Lunch) ∧
    allocate tieUsers = allocate tieUsersSwapped :=
  ⟨scheduler_candidate_order.2.2.1 tieUsers .Monday .Lunch .Apple .Banana 1
      (by decide) (by decide) (by decide) (by decide),
   scheduler_candidate_order.2.2.2.1 tieUsers tieUsersSwapped rfl (by decide)⟩

/-- Witness for C1 at a concrete input: the empty ballot set's plan has
the canonical key sequence and exactly one entry for Monday Lunch. -/
theorem plan_covers_every_slot_once_witness :
    ((allocate ([] : Users)).plan.map Prod.fst = slots) ∧
    ((allocate ([] : Users)).plan.filter
      (fun e => decide (e.1 = (Day.Monday, Meal.Lunch)))).length = 1 :=
  ⟨(plan_covers_every_slot_once ([] : Users)).1,
   (plan_covers_every_slot_once ([] : Users)).2 (.Monday, .Lunch) (by decide)⟩

/-! ### The per-participant availability filter -/

theorem avail_mem_iff_raw (users : Users) (tu : String) (td : Day) (tm : Meal) (f : Fruit) :
    f ∈ getAvailableFruits users tu td tm ↔
      (¬(userSel users tu td (if tm = .Lunch then .Dinner else .Lunch) = some f) ∧
       f ∉ ((match prevDay td with
             | some pd => meals.filterMap (fun m => userSel users tu pd m)
             | none => []) ++
            (match nextDay td with
             | some nd => meals.filterMap (fun m => userSel users tu nd m)
             | none => [])) ∧
       (slots.filter (fun s =>
         decide (¬(s.1 = td ∧ s.2 = tm)) &&
           decide (userSel users tu s.1 s.2 = some f))).length < 2) := by
  unfold getAvailableFruits
  rw [List.mem_filter]
  simp only [mem_fruits, true_and]
  by_cases h1 : userSel users tu td (if tm = .Lunch then .Dinner else .Lunch) = some f
  · rw [if_pos h1]
    simp [h1]
  · rw [if_neg h1]
    by_cases h2 : f ∈ ((match prevDay td with
        | some pd => meals.filterMap (fun m => userSel users tu pd m)
        | none => []) ++
        (match nextDay td with
        | some nd => meals.filterMap (fun m => userSel users tu nd m)
        | none => []))
    · rw [if_pos h2]
      simp [h1, h2]
    · rw [if_neg h2]
      by_cases h3 : 2 ≤ (slots.filter (fun s =>
          decide (¬(s.1 = td ∧ s.2 = tm)) &&
            decide (userSel users tu s.1 s.2 = some f))).length
      · rw [if_pos h3]
        simp only [Bool.false_eq_true, false_iff]
        exact fun hcontra => Nat.not_lt.mpr h3 hcontra.2.2
      · rw [if_neg h3]
        have h3' := Nat.lt_of_not_le h3
        simp only [true_iff]
        exact ⟨h1, h2, h3'⟩

/-- C9 (amended): `getAvailableFruits` returns exactly the catalog items
that pass the three constraint rules evaluated against that one
participant's own selections — same-day exclusivity, adjacency
exclusivity against BOTH the previous and the next day (the scheduler
itself consults only the previous day), and the usage cap of 2 with the
target slot's own current selection excluded from the count. -/
theorem availability_filter_characterization (users : Users) (tu : String)
    (td : Day) (tm : Meal) (f : Fruit) :
    f ∈ getAvailableFruits users tu td tm ↔ availSpec users tu td tm f := by
  rw [avail_mem_iff_raw]
  unfold availSpec ownUsage
  constructor
  · rintro ⟨h1, h2, h3⟩
    refine ⟨?_, ?_, h3⟩
    · intro m2 hm2
      cases tm <;> cases m2 <;> simp_all
    · intro ad had mm hsel
      apply h2
      rw [List.mem_append]
      rcases had with hp | hn
      · left
        rw [hp]
        exact List.mem_filterMap.mpr ⟨mm, mem_meals mm, hsel⟩
      · right
        rw [hn]
        exact List.mem_filterMap.mpr ⟨mm, mem_meals mm, hsel⟩
  · rintro ⟨h1, h2, h3⟩
    refine ⟨?_, ?_, h3⟩
    · cases tm <;> exact h1 _ (by decide)
    · intro hf
      rw [List.mem_append] at hf
      rcases hf with hf | hf
      · cases hp : prevDay td with
        | none => rw [hp] at hf; cases hf
        | some pd =>
          rw [hp] at hf
          obtain ⟨mm, -, hsel⟩ := List.mem_filterMap.mp hf
          exact h2 pd (Or.inl hp) mm hsel
      · cases hn : nextDay td with
        | none => rw [hn] at hf; cases hf
        | some nd =>
          rw [hn] at hf
          obtain ⟨mm, -, hsel⟩ := List.mem_filterMap.mp hf
          exact h2 nd (Or.inr hn) mm hsel

/-- C9 counterexample: with one participant whose only selection is
Apple at Tuesday Lunch, editing Monday Lunch — the scheduler's rules
(previous-day-only adjacency) would leave Apple legal, but
`getAvailableFruits` excludes it because it also looks ahead to the next
day; the returned list is therefore not the scheduler-rule filter. -/
theorem availability_filter_not_scheduler_rules :
    getAvailableFruits cexUsers "User 1" .Monday .Lunch ≠
      availBySchedulerRules cexUsers "User 1" .Monday .Lunch := by
  decide

end MessPlanner
